import Mathlib

/-!
Shallow embedding of the LyrPro timing-synchronization core:
the time-tagged text data model (`types.ts`), the line start/end
sentinel functions (`utils/projectUtils.ts`), the per-character fill
progress computation (`components/ProgressFillText.tsx`), the scrub
editor (`components/SyncMode.tsx`), the overlap-resolution and
active-line selection (`components/PreviewMode.tsx`) and the structural
edit commit (`components/StructureMode.tsx`).  JS numbers carrying the
Infinity sentinels are modelled by `ETime`; finite times are rationals.
-/

namespace LyrPro

/-- JS `Math.min` on two finite numbers (kernel-reducible). -/
def qmin (a b : ℚ) : ℚ := if a < b then a else b

/-- JS `Math.max` on two finite numbers (kernel-reducible). -/
def qmax (a b : ℚ) : ℚ := if a < b then b else a

/-- JS number used as a timestamp: either a finite value or one of the
two infinity sentinels used by the source (`Infinity`, `-Infinity`). -/
inductive ETime where
  | negInf : ETime
  | fin : ℚ → ETime
  | posInf : ETime
deriving DecidableEq, Repr

namespace ETime

/-- JS `<=` on timestamp values (no NaN arises in the modelled code). -/
def ble : ETime → ETime → Bool
  | negInf, _ => true
  | fin a, fin b => decide (a ≤ b)
  | fin _, posInf => true
  | fin _, negInf => false
  | posInf, posInf => true
  | posInf, _ => false

/-- JS `<` on timestamp values. -/
def blt : ETime → ETime → Bool
  | _, negInf => false
  | negInf, _ => true
  | fin a, fin b => decide (a < b)
  | fin _, posInf => true
  | posInf, _ => false

instance : LE ETime := ⟨fun a b => ble a b = true⟩

instance : LT ETime := ⟨fun a b => blt a b = true⟩

instance (a b : ETime) : Decidable (a ≤ b) :=
  inferInstanceAs (Decidable (ble a b = true))

instance (a b : ETime) : Decidable (a < b) :=
  inferInstanceAs (Decidable (blt a b = true))

/-- JS `Math.max` on two timestamp values. -/
def max (a b : ETime) : ETime := if blt a b then b else a

/-- Subtraction of a finite constant, as JS computes `x - c`
(`Infinity - c = Infinity`, `-Infinity - c = -Infinity`). -/
def subQ : ETime → ℚ → ETime
  | negInf, _ => negInf
  | posInf, _ => posInf
  | fin a, q => fin (a - q)

end ETime

/-- An ad-lib part of a line (`types.ts`, interface `AdlibPart`).  Ids are
modelled as naturals; the source uses opaque unique strings. -/
structure AdlibPart where
  id : Nat
  chars : List Char
  time : List (Option ℚ)
deriving DecidableEq, Repr

/-- A lyric line (`types.ts`, interface `SyncLine`). -/
structure SyncLine where
  id : Nat
  chars : List Char
  time : List (Option ℚ)
  adlibs : List AdlibPart
  groupId : Option Nat := none
  label : Option String := none
  singer : Option Nat := none
deriving DecidableEq, Repr

/-! ### utils/projectUtils.ts -/

/-- `getLineStartTime` (projectUtils.ts:78-83).  The argument is optional to
model the JS `if (!line) return Infinity` guard.  `Math.min(...times)` over
a nonempty list is a left fold of `min`. -/
def getLineStartTime : Option SyncLine → ETime
  | none => .posInf
  | some line =>
    match (line.time ++ line.adlibs.flatMap (fun a => a.time)).filterMap id with
    | [] => .posInf
    | t :: ts => .fin (ts.foldl qmin t)

/-- `getLineEndTime` (projectUtils.ts:85-90).  Note that the null-line guard
returns `Infinity`, not `-Infinity`. -/
def getLineEndTime : Option SyncLine → ETime
  | none => .posInf
  | some line =>
    match (line.time ++ line.adlibs.flatMap (fun a => a.time)).filterMap id with
    | [] => .negInf
    | t :: ts => .fin (ts.foldl qmax t)

/-- `getMainLineEndTime` (projectUtils.ts:92-96). -/
def getMainLineEndTime : Option SyncLine → ETime
  | none => .negInf
  | some line =>
    match line.time.filterMap id with
    | [] => .negInf
    | t :: ts => .fin (ts.foldl qmax t)

/-- `getAdlibStartTime` (projectUtils.ts:98-102). -/
def getAdlibStartTime : Option AdlibPart → ETime
  | none => .posInf
  | some adlib =>
    match adlib.time.filterMap id with
    | [] => .posInf
    | t :: ts => .fin (ts.foldl qmin t)

/-- `getAdlibEndTime` (projectUtils.ts:104-108).  The null guard again
returns `Infinity`. -/
def getAdlibEndTime : Option AdlibPart → ETime
  | none => .posInf
  | some adlib =>
    match adlib.time.filterMap id with
    | [] => .negInf
    | t :: ts => .fin (ts.foldl qmax t)

/-- The combined list of defined timestamps of a line (main track plus all
ad-lib tracks), exactly the `times` array built inside
`getLineStartTime`/`getLineEndTime`. -/
def lineTimes (line : SyncLine) : List ℚ :=
  (line.time ++ line.adlibs.flatMap (fun a => a.time)).filterMap id

/-! ### components/ProgressFillText.tsx -/

/-- The `for` loop of ProgressFillText.tsx:28-33 computing `lastSungIndex`
(and with it `startTime = time[lastSungIndex]`): the last index whose
timestamp is defined and at most `currentTime`.  `none` models the `-1`
sentinel. -/
def lastSungLoop (currentTime : ℚ) :
    List (Option ℚ) → Nat → Option (Nat × ℚ) → Option (Nat × ℚ)
  | [], _, acc => acc
  | t? :: rest, i, acc =>
    lastSungLoop currentTime rest (i + 1)
      (match t? with
       | some t => if t ≤ currentTime then some (i, t) else acc
       | none => acc)

/-- The `findIndex` of ProgressFillText.tsx:41: the first index past
`lastSungIndex` carrying a defined timestamp (paired with that timestamp,
as the source immediately reads `time[nextSungIndex]`). -/
def nextSungLoop (lastSungIndex : Nat) :
    List (Option ℚ) → Nat → Option (Nat × ℚ)
  | [], _ => none
  | t? :: rest, i =>
    match t? with
    | some t =>
      if lastSungIndex < i then some (i, t) else nextSungLoop lastSungIndex rest (i + 1)
    | none => nextSungLoop lastSungIndex rest (i + 1)

/-- The `progress` computation of ProgressFillText.tsx:16-59: percentage of
the line considered sung at `currentTime`. -/
def progress (chars : List Char) (time : List (Option ℚ)) (currentTime : ℚ)
    (endTimeOverride : Option ℚ) (isComplete : Bool) : ℚ :=
  if isComplete then 100
  else if chars.length = 0 ∨ time.all (fun t => t.isNone) then 0
  else
    match time.findSome? (fun t => t) with
    | none => 0
    | some firstTime =>
      if currentTime < firstTime then 0
      else
        match lastSungLoop currentTime time 0 none with
        | none => 0
        | some (lastSungIndex, startTime) =>
          let next? := nextSungLoop lastSungIndex time 0
          let endTime : Option ℚ :=
            match next? with
            | some (_, t) => some t
            | none => endTimeOverride
          match endTime with
          | none => (((lastSungIndex : ℚ) + 1) / chars.length) * 100
          | some e =>
            if e ≤ startTime then (((lastSungIndex : ℚ) + 1) / chars.length) * 100
            else
              let segmentDuration := e - startTime
              let timeIntoSegment := currentTime - startTime
              let segmentProgress := qmax 0 (qmin 1 (timeIntoSegment / segmentDuration))
              let charsInSegment : ℚ :=
                (match next? with
                 | some (j, _) => (j : ℚ)
                 | none => (chars.length : ℚ)) - (lastSungIndex : ℚ)
              let charsDone := (lastSungIndex : ℚ) + segmentProgress * charsInSegment
              (charsDone / chars.length) * 100

/-! ### components/SyncMode.tsx -/

/-- The sync target selector (SyncMode.tsx:24-27). -/
inductive SyncTarget where
  | main : SyncTarget
  | adlib (adlibIndex : Nat) : SyncTarget
deriving DecidableEq, Repr

/-- The modelled component state of SyncMode: the lyric data, the current
line index, the character index, the sync target, and the audio element's
current time and play state. -/
structure SyncState where
  syncData : List SyncLine
  currentLine : Nat
  charIdx : Nat
  syncTarget : SyncTarget
  audioTime : ℚ
  playing : Bool
deriving DecidableEq, Repr

/-- Backward scan (`for i = n-1; i >= 0; i--`) for the last index of `time`
holding a defined timestamp, as in SyncMode.tsx:34-40 and 245-251.  The
argument is the exclusive upper bound of the scan. -/
def lastDefinedFrom (time : List (Option ℚ)) : Nat → Option Nat
  | 0 => none
  | i + 1 =>
    match time.get? i with
    | some (some _) => some i
    | _ => lastDefinedFrom time i

/-- `isPartSynced` (SyncMode.tsx:32-42): true when the last defined
timestamp index reaches the last character (`-1` when none is defined,
which never reaches a nonnegative bound). -/
def isPartSynced (chars : List Char) (time : List (Option ℚ)) : Bool :=
  if chars.length = 0 then true
  else
    match lastDefinedFrom time time.length with
    | some lastSyncedIndex => decide (chars.length - 1 ≤ lastSyncedIndex)
    | none => false

/-- `findEarliestStartTimeForGroup` (SyncMode.tsx:44-51). -/
def findEarliestStartTimeForGroup (groupId : Nat) (allLines : List SyncLine) : ETime :=
  let groupLines := allLines.filter (fun line => line.groupId = some groupId)
  let groupStartTimes :=
    (groupLines.map (fun l => getLineStartTime (some l))).filter (fun t => t ≠ .posInf)
  match groupStartTimes with
  | [] => .posInf
  | t :: ts => ts.foldl (fun a b => if ETime.blt a b then a else b) t

/-- The `activeChars` memo (SyncMode.tsx:207-211). -/
def activeCharsOf (line : SyncLine) : SyncTarget → List Char
  | .main => line.chars
  | .adlib adlibIndex => ((line.adlibs.get? adlibIndex).map (fun a => a.chars)).getD []

/-- A line with all its timestamp tracks cleared to null arrays of the
matching character length, as built inline in SyncMode.tsx:112-119,
404-410 and 428-435. -/
def resetLineTimes (l : SyncLine) : SyncLine :=
  { l with
    time := List.replicate l.chars.length none,
    adlibs := l.adlibs.map (fun a => { a with time := List.replicate a.chars.length none }) }

/-- `changeLine` (SyncMode.tsx:82-135).  With `seek` set, the updater first
computes the group-aware jump-back position from the previous data, then
clears the target line's timings; finally the line/target/character state
is reset and playback started or paused. -/
def changeLine (st : SyncState) (index : Nat) (play seek : Bool) : SyncState :=
  let st :=
    if seek then
      let st1 :=
        match st.syncData.get? index with
        | some lineToSeek =>
          let jumpTime := getLineStartTime (some lineToSeek)
          let jumpTime :=
            match lineToSeek.groupId with
            | some gid =>
              let groupStartTime := findEarliestStartTimeForGroup gid st.syncData
              if groupStartTime ≠ ETime.posInf ∧ (jumpTime = ETime.posInf ∨ groupStartTime < jumpTime)
              then groupStartTime else jumpTime
            | none => jumpTime
          match jumpTime with
          | .posInf => st
          | .fin q => { st with audioTime := qmax 0 (q - 3) }
          | .negInf => { st with audioTime := 0 }
        | none => st
      match st1.syncData.get? index with
      | some lineToClear =>
        { st1 with syncData := st1.syncData.set index (resetLineTimes lineToClear) }
      | none => st1
    else st
  { st with currentLine := index, syncTarget := .main, charIdx := 0, playing := play }

/-- `handleTargetChange` (SyncMode.tsx:214-236): select a part, reset the
character index, seek slightly before the line start, resume playback. -/
def handleTargetChange (st : SyncState) (newTarget : SyncTarget) : SyncState :=
  let st := { st with syncTarget := newTarget, charIdx := 0 }
  let lineStartTime := getLineStartTime (st.syncData.get? st.currentLine)
  let st :=
    match lineStartTime with
    | .posInf => st
    | .fin q => { st with audioTime := if (1 / 10 : ℚ) < q then q - 1 / 10 else 0 }
    | .negInf => { st with audioTime := 0 }
  if st.playing then st else { st with playing := true }

/-- The clearing loop of `updateTimestamps` (SyncMode.tsx:277-280): every
index greater than `newIdx` becomes null.  The second argument tracks the
index of the list head. -/
def clearAfter (newIdx : Nat) : List (Option ℚ) → Nat → List (Option ℚ)
  | [], _ => []
  | t :: rest, i => (if newIdx < i then none else t) :: clearAfter newIdx rest (i + 1)

/-- The backward scan of `updateTimestamps` (SyncMode.tsx:282-291) for the
most recent timestamped character strictly before the bound. -/
def lastSyncedBefore (l : List (Option ℚ)) : Nat → Option (Nat × ℚ)
  | 0 => none
  | i + 1 =>
    match l.get? i with
    | some (some t) => some (i, t)
    | _ => lastSyncedBefore l i

/-- The interpolation loop of `updateTimestamps` (SyncMode.tsx:295-303):
each index strictly between `lastSyncedIdx` and `newIdx` receives the
linearly interpolated timestamp.  The second list argument tracks the
index of the list head. -/
def interpFill (lastSyncedIdx : Nat) (lastSyncedTime : ℚ) (newIdx : Nat) (newTime : ℚ) :
    List (Option ℚ) → Nat → List (Option ℚ)
  | [], _ => []
  | t :: rest, i =>
    (if lastSyncedIdx < i ∧ i < newIdx then
      let timeDiff := newTime - lastSyncedTime
      let indexDiff : ℚ := (newIdx : ℚ) - (lastSyncedIdx : ℚ)
      let fraction := ((i : ℚ) - (lastSyncedIdx : ℚ)) / indexDiff
      some (lastSyncedTime + timeDiff * fraction)
    else t) :: interpFill lastSyncedIdx lastSyncedTime newIdx newTime rest (i + 1)

/-- `updateTimestamps` (SyncMode.tsx:271-306): assign the scrub timestamp,
clear all future entries, then gap-fill by interpolation against the
nearest earlier timestamp. -/
def updateTimestamps (timeArray : List (Option ℚ)) (newIdx : Nat) (newTime : ℚ) :
    List (Option ℚ) :=
  let newTimes := timeArray.set newIdx (some newTime)
  let newTimes := clearAfter newIdx newTimes 0
  match lastSyncedBefore newTimes newIdx with
  | some (lastSyncedIdx, lastSyncedTime) =>
    if lastSyncedIdx + 1 < newIdx then
      interpFill lastSyncedIdx lastSyncedTime newIdx newTime newTimes 0
    else newTimes
  | none => newTimes

/-- The `setSyncData` update of `handleSliderInput` (SyncMode.tsx:267-321):
apply `updateTimestamps` to the active target's track of the current
line. -/
def sliderInputUpdate (prevData : List SyncLine) (currentLine : Nat) (target : SyncTarget)
    (newIdx : Nat) (newTime : ℚ) : List SyncLine :=
  match prevData.get? currentLine with
  | none => prevData
  | some lineToUpdate =>
    let lineToUpdate :=
      match target with
      | .main => { lineToUpdate with time := updateTimestamps lineToUpdate.time newIdx newTime }
      | .adlib adlibIndex =>
        match lineToUpdate.adlibs.get? adlibIndex with
        | some adlibToUpdate =>
          let adlibToUpdate :=
            { adlibToUpdate with time := updateTimestamps adlibToUpdate.time newIdx newTime }
          { lineToUpdate with adlibs := lineToUpdate.adlibs.set adlibIndex adlibToUpdate }
        | none => lineToUpdate
    prevData.set currentLine lineToUpdate

/-- Step 1 of `handleSliderRelease` (SyncMode.tsx:333-345): write the
release timestamp into the active target's track of the line. -/
def releaseUpdatedLine (lineData : SyncLine) (target : SyncTarget) (releaseIndex : Nat)
    (releaseTime : ℚ) : SyncLine :=
  match target with
  | .main => { lineData with time := lineData.time.set releaseIndex (some releaseTime) }
  | .adlib adlibIndex =>
    match lineData.adlibs.get? adlibIndex with
    | some adlib =>
      let adlib := { adlib with time := adlib.time.set releaseIndex (some releaseTime) }
      { lineData with adlibs := lineData.adlibs.set adlibIndex adlib }
    | none => lineData

/-- The no-group rewind of `handleSliderRelease` (SyncMode.tsx:381-387):
rewind three seconds when the finished line had ad-libs, else leave the
audio position unchanged. -/
def rewindForAdlibs (st : SyncState) (lineToUpdate : SyncLine) : SyncState :=
  if lineToUpdate.adlibs.length ≠ 0 then { st with audioTime := qmax 0 (st.audioTime - 3) }
  else st

/-- `handleSliderRelease` (SyncMode.tsx:326-398): commit the release
timestamp; when released at the last character of a part, switch to the
next unsynced part, or advance to the next line — seeking to just before
the group start when the next line shares the current line's group, or
rewinding three seconds when the line had ad-libs.  `handleTargetChange`
closes over the pre-commit `syncData`, so it is applied to the old state
before the commit is installed. -/
def handleSliderRelease (st : SyncState) : SyncState :=
  match st.syncData.get? st.currentLine with
  | none => st
  | some lineData =>
    let releaseTime := st.audioTime
    let releaseIndex := st.charIdx
    let activeChars := activeCharsOf lineData st.syncTarget
    let lineToUpdate := releaseUpdatedLine lineData st.syncTarget releaseIndex releaseTime
    let nextSyncData := st.syncData.set st.currentLine lineToUpdate
    let isAtEnd := decide (activeChars.length - 1 ≤ releaseIndex) && decide (0 < activeChars.length)
    if isAtEnd then
      if ! isPartSynced lineToUpdate.chars lineToUpdate.time then
        let st1 := handleTargetChange st .main
        { st1 with syncData := nextSyncData }
      else
        match lineToUpdate.adlibs.findIdx? (fun adlib => ! isPartSynced adlib.chars adlib.time) with
        | some firstUnsyncedAdlibIndex =>
          let st1 := handleTargetChange st (.adlib firstUnsyncedAdlibIndex)
          { st1 with syncData := nextSyncData }
        | none =>
          let nextLineIndex := st.currentLine + 1
          match nextSyncData.get? nextLineIndex with
          | some nextLineData =>
            let st1 :=
              match lineToUpdate.groupId, nextLineData.groupId with
              | some gid, some gid2 =>
                if gid = gid2 then
                  match findEarliestStartTimeForGroup gid nextSyncData with
                  | .posInf => st
                  | .fin q => { st with audioTime := if (1 / 10 : ℚ) < q then q - 1 / 10 else 0 }
                  | .negInf => { st with audioTime := 0 }
                else rewindForAdlibs st lineToUpdate
              | _, _ => rewindForAdlibs st lineToUpdate
            changeLine { st1 with syncData := nextSyncData } nextLineIndex true false
          | none => { st with syncData := nextSyncData }
    else { st with syncData := nextSyncData }

/-- `handleResetTimings` (SyncMode.tsx:400-418): clear every track of every
line, then jump back to line 0 (with seek) and pause. -/
def handleResetTimings (st : SyncState) : SyncState :=
  let st := { st with syncData := st.syncData.map resetLineTimes }
  changeLine st 0 false true

/-- `handleReplayLine` (SyncMode.tsx:420-455): clear the current line's
tracks, reset the target state, seek three seconds before the line's
original start and play. -/
def handleReplayLine (st : SyncState) : SyncState :=
  match st.syncData.get? st.currentLine with
  | none => st
  | some lineData =>
    let originalStartTime := getLineStartTime (some lineData)
    let resetLine := resetLineTimes lineData
    let st := { st with
      syncData := st.syncData.set st.currentLine resetLine,
      syncTarget := .main, charIdx := 0 }
    match originalStartTime with
    | .posInf => st
    | .fin q => { st with audioTime := qmax 0 (q - 3), playing := true }
    | .negInf => { st with audioTime := 0, playing := true }

/-! ### components/PreviewMode.tsx -/

/-- One entry of the `linesWithTimes` array (PreviewMode.tsx:333). -/
structure LineTimes where
  id : Nat
  start : ETime
  endT : ETime
deriving DecidableEq, Repr

/-- JS `Map.set` on an insertion-ordered association list: update the
existing key in place, otherwise append.  JS map keys are unique, so at
most one entry per key ever exists. -/
def mapSet (m : List (Nat × ETime)) (k : Nat) (v : ETime) : List (Nat × ETime) :=
  if m.any (fun p => p.1 = k) then m.map (fun p => if p.1 = k then (k, v) else p)
  else m ++ [(k, v)]

/-- JS `Map.get` (`undefined` becomes `none`). -/
def mapGet (m : List (Nat × ETime)) (k : Nat) : Option ETime :=
  (m.find? (fun p => p.1 = k)).map (fun p => p.2)

/-- JS `Map.has`. -/
def mapHas (m : List (Nat × ETime)) (k : Nat) : Bool :=
  m.any (fun p => p.1 = k)

/-- The body of the inner pair loop of `effectiveLineEndTimes`
(PreviewMode.tsx:340-349), for a fixed `lineA` and one `lineB`, threading
the `(endTimes, changedInIteration)` state. -/
def overlapPairStep (sortedSyncData : List SyncLine) (lineA lineB : LineTimes)
    (st : List (Nat × ETime) × Bool) : List (Nat × ETime) × Bool :=
  let (endTimes, changed) := st
  if lineA.id = lineB.id ∨ lineB.start = ETime.posInf ∨ ¬ mapHas endTimes lineB.id then st
  else
    let lineAEnd := getLineEndTime (sortedSyncData.find? (fun l => l.id = lineA.id))
    let lineBEnd := getLineEndTime (sortedSyncData.find? (fun l => l.id = lineB.id))
    if ETime.blt lineA.start lineBEnd ∧ ETime.blt lineB.start lineAEnd then
      match mapGet endTimes lineA.id, mapGet endTimes lineB.id with
      | some a, some b =>
        let maxEnd := ETime.max a b
        let (endTimes, changed) :=
          if ETime.blt a maxEnd then (mapSet endTimes lineA.id maxEnd, true)
          else (endTimes, changed)
        match mapGet endTimes lineB.id with
        | some b1 =>
          if ETime.blt b1 maxEnd then (mapSet endTimes lineB.id maxEnd, true)
          else (endTimes, changed)
        | none => (endTimes, changed)
      | _, _ => st
    else st

/-- One full pass of the nested pair loops of `effectiveLineEndTimes`
(PreviewMode.tsx:337-350), with the `continue` guard on `lineA`. -/
def overlapPass (sortedSyncData : List SyncLine) (linesWithTimes : List LineTimes)
    (endTimes : List (Nat × ETime)) : List (Nat × ETime) × Bool :=
  linesWithTimes.foldl
    (fun st lineA =>
      if lineA.start = ETime.posInf ∨ ¬ mapHas st.1 lineA.id then st
      else linesWithTimes.foldl (fun st lineB => overlapPairStep sortedSyncData lineA lineB st) st)
    (endTimes, false)

/-- The bounded fixpoint loop of `effectiveLineEndTimes`
(PreviewMode.tsx:336-352): run at most `fuel` passes, stopping early when a
pass changes nothing. -/
def resolveLoop (sortedSyncData : List SyncLine) (linesWithTimes : List LineTimes) :
    Nat → List (Nat × ETime) → List (Nat × ETime)
  | 0, endTimes => endTimes
  | fuel + 1, endTimes =>
    let (endTimes1, changedInIteration) := overlapPass sortedSyncData linesWithTimes endTimes
    if changedInIteration then resolveLoop sortedSyncData linesWithTimes fuel endTimes1
    else endTimes1

/-- `effectiveLineEndTimes` (PreviewMode.tsx:331-354): seed each line that
has a defined end time with it, then transitively merge the end times of
overlapping lines until a fixpoint (bounded by the number of lines). -/
def effectiveLineEndTimes (sortedSyncData : List SyncLine) : List (Nat × ETime) :=
  match sortedSyncData with
  | [] => []
  | _ :: _ =>
    let linesWithTimes := sortedSyncData.map
      (fun line => LineTimes.mk line.id (getLineStartTime (some line)) (getLineEndTime (some line)))
    let endTimes := linesWithTimes.foldl
      (fun m line => if line.endT ≠ ETime.negInf then mapSet m line.id line.endT else m) []
    resolveLoop sortedSyncData linesWithTimes linesWithTimes.length endTimes

/-- The per-line active test of the `activeLineIds` loop
(PreviewMode.tsx:360-366): skip unsynced lines, then require a defined
effective end (`?? -Infinity` guard), the 0.2 s pre-roll window and
`currentTime` strictly before the effective end. -/
def activeLinePred (endTimes : List (Nat × ETime)) (currentTime : ℚ) (line : SyncLine) : Bool :=
  let startTime := getLineStartTime (some line)
  if startTime = ETime.posInf then false
  else
    let endTime := (mapGet endTimes line.id).getD ETime.negInf
    endTime ≠ ETime.negInf
      ∧ ETime.ble (ETime.subQ startTime (1 / 5)) (ETime.fin currentTime)
      ∧ ETime.blt (ETime.fin currentTime) endTime

/-- The `activeLineIds` accumulation of PreviewMode.tsx:356-368 (the
`mostRecentStartedId` bookkeeping of the same loop is not modelled). -/
def activeLineIds (sortedSyncData : List SyncLine) (currentTime : ℚ) : List Nat :=
  ((sortedSyncData.filter
      (activeLinePred (effectiveLineEndTimes sortedSyncData) currentTime)).map
    (fun l => l.id))

/-! ### components/StructureMode.tsx -/

/-- An ad-lib row of the structure editor (StructureMode.tsx:7-10).  Text is
a character list; the source stores strings and spreads them into
character arrays on confirm. -/
structure StructureAdlib where
  id : Nat
  text : List Char
deriving DecidableEq, Repr

/-- A structure-editor line (StructureMode.tsx:12-19). -/
structure StructureLine where
  id : Nat
  text : List Char
  adlibs : List StructureAdlib
  label : Option String := none
  singer : Option Nat := none
  groupId : Option Nat := none
deriving DecidableEq, Repr

/-- The regex replacement of one leading opening and one trailing closing
parenthesis, as in StructureMode.tsx:255 and 275. -/
def stripParens (s : List Char) : List Char :=
  let s1 := match s with
    | c :: rest => if c = '(' then rest else s
    | [] => s
  if s1.getLast? = some ')' then s1.dropLast else s1

/-- Emptiness of the JS-trimmed text (`!mainText.trim()` in
StructureMode.tsx:254): true when every character is whitespace. -/
def isBlankText (s : List Char) : Bool := s.all (fun c => c.isWhitespace)

/-- The ad-lib promotion of `handleConfirm` (StructureMode.tsx:251-257):
when the main text is blank and ad-libs exist, the first ad-lib (with its
parentheses stripped) becomes the main text and is removed from the
ad-lib list. -/
def promotedParts (line : StructureLine) : List Char × List StructureAdlib :=
  if isBlankText line.text ∧ line.adlibs ≠ [] then
    match line.adlibs with
    | a :: rest => (stripParens a.text, rest)
    | [] => (line.text, line.adlibs)
  else (line.text, line.adlibs)

/-- The ad-lib mapper of `handleConfirm` (StructureMode.tsx:274-291):
fresh null track unless the ad-lib text is unchanged from the matching
original ad-lib, whose track is then preserved.  The
`chars.join('') === cleanText` comparison of the source is character-list
equality. -/
def confirmAdlib (originalLine : Option SyncLine) (adlib : StructureAdlib) : AdlibPart :=
  let cleanText := stripParens adlib.text
  let newAdlibChars := cleanText
  let originalAdlib := originalLine.bind (fun ol => ol.adlibs.find? (fun a => a.id = adlib.id))
  let finalAdlibTime :=
    match originalAdlib with
    | some oa => if oa.chars = cleanText then oa.time else List.replicate newAdlibChars.length none
    | none => List.replicate newAdlibChars.length none
  AdlibPart.mk adlib.id newAdlibChars finalAdlibTime

/-- The line mapper of `handleConfirm` (StructureMode.tsx:248-292). -/
def confirmLine (initialStructure : Option (List SyncLine)) (line : StructureLine) : SyncLine :=
  let originalLine := initialStructure.bind (fun ls => ls.find? (fun l => l.id = line.id))
  let mainText := (promotedParts line).1
  let adlibs := (promotedParts line).2
  let newChars := mainText
  let finalTime :=
    match originalLine with
    | some ol => if ol.chars = mainText then ol.time else List.replicate newChars.length none
    | none => List.replicate newChars.length none
  SyncLine.mk line.id newChars finalTime (adlibs.map (confirmAdlib originalLine))
    line.groupId line.label line.singer

/-- `handleConfirm` (StructureMode.tsx:247-295): turn structure lines into
sync lines; an empty main text is replaced by the first ad-lib; timestamp
tracks are fresh null arrays unless the text is unchanged from
`initialStructure`, in which case the original track is preserved; lines
with no characters at all are dropped.  The `chars.join('') === mainText`
comparison of the source is character-list equality. -/
def handleConfirm (lines : List StructureLine) (initialStructure : Option (List SyncLine)) :
    List SyncLine :=
  (lines.map (confirmLine initialStructure)).filter
    (fun line => decide (0 < line.chars.length) || decide (0 < line.adlibs.length))

/-! ### Invariants and concrete scenario data -/

/-- The data-model invariant for one track pair. -/
def lineWF (l : SyncLine) : Prop :=
  l.chars.length = l.time.length ∧ ∀ a ∈ l.adlibs, a.chars.length = a.time.length

/-- The data-model invariant: every track (main and ad-lib) of every line
has as many timestamps as characters. -/
def syncWF (sd : List SyncLine) : Prop := ∀ l ∈ sd, lineWF l

/-- Scenario line with interval [0, 5]. -/
def line5A : SyncLine := { id := 1, chars := ['a', 'b'], time := [some 0, some 5], adlibs := [] }

/-- Scenario line with interval [4, 9]. -/
def line5B : SyncLine := { id := 2, chars := ['c', 'd'], time := [some 4, some 9], adlibs := [] }

/-- Scenario line with interval [8, 12]. -/
def line5C : SyncLine := { id := 3, chars := ['e', 'f'], time := [some 8, some 12], adlibs := [] }

/-- Scenario line A of the group-advance scenario: one unsynced character,
group 7. -/
def lineG_A : SyncLine :=
  { id := 10, chars := ['a'], time := [none], adlibs := [], groupId := some 7 }

/-- Scenario line B of the group-advance scenario: one character synced at
5 s, group 7. -/
def lineG_B : SyncLine :=
  { id := 11, chars := ['b'], time := [some 5], adlibs := [], groupId := some 7 }

/-- Group-advance scenario state: about to release at the last (only)
character of line A with the audio clock at 9 s. -/
def stG : SyncState :=
  { syncData := [lineG_A, lineG_B], currentLine := 0, charIdx := 0,
    syncTarget := .main, audioTime := 9, playing := true }

/-- Closed form of `progress` on a fully defined, strictly increasing
timestamp track, phrased through the count of timestamps not exceeding the
current time; proved equal to `progress` in `progress_eq_closedForm` below
and used to establish C7. -/
def progressClosedForm (n : ℚ) (ts : List ℚ) (o : Option ℚ) (ct : ℚ) : ℚ :=
  if ts.countP (fun t => decide (t ≤ ct)) = 0 then 0
  else
    let c := ts.countP (fun t => decide (t ≤ ct))
    let s := ts.getD (c - 1) 0
    let e? : Option ℚ := if c < ts.length then some (ts.getD c 0) else o
    match e? with
    | none => (((c : ℚ) - 1) + 1) / n * 100
    | some e =>
      if e ≤ s then (((c : ℚ) - 1) + 1) / n * 100
      else (((c : ℚ) - 1) + qmax 0 (qmin 1 ((ct - s) / (e - s)))) / n * 100

/-! ## Theorems -/

theorem qmin_eq_min (a b : ℚ) : qmin a b = Min.min a b := by
  simp only [qmin, min_def]
  rcases lt_trichotomy a b with h | h | h
  · rw [if_pos h, if_pos h.le]
  · subst h; simp
  · rw [if_neg (not_lt.mpr h.le), if_neg (not_le.mpr h)]

theorem qmax_eq_max (a b : ℚ) : qmax a b = Max.max a b := by
  simp only [qmax, max_def]
  rcases lt_trichotomy a b with h | h | h
  · rw [if_pos h, if_pos h.le]
  · subst h; simp
  · rw [if_neg (not_lt.mpr h.le), if_neg (not_le.mpr h)]

/-- C10: `getLineEndTime` and `getAdlibEndTime` both return the positive
infinity sentinel on a null argument — the sentinel otherwise reserved for
"no start" — rather than the negative-infinity "no end" sentinel, so a
caller testing "end differs from negative infinity" treats an absent line
or ad-lib as having a defined end time. -/
theorem C10_null_end_sentinel :
    getLineEndTime none = ETime.posInf ∧ getAdlibEndTime none = ETime.posInf ∧
    getLineEndTime none ≠ ETime.negInf ∧ getAdlibEndTime none ≠ ETime.negInf := by
  refine ⟨rfl, rfl, ?_, ?_⟩ <;> decide

/-- C1 counterexample: on the spec's end-to-end scenario (chars "hi", track
[1.0, 3.0], no override, not complete, currentTime 2.0) the fill progress
is not 75. -/
theorem C1_counterexample :
    progress ['h', 'i'] [some 1, some 3] 2 none false ≠ 75 := by
  norm_num [progress, lastSungLoop, nextSungLoop, qmin, qmax]

/-- C1 (amended): on that scenario the fill progress is 25 — the code adds
the fractional segment position to `lastSungIndex` (here 0), not to
`lastSungIndex + 1`. -/
theorem C1_progress_value :
    progress ['h', 'i'] [some 1, some 3] 2 none false = 25 := by
  norm_num [progress, lastSungLoop, nextSungLoop, qmin, qmax]

/-- C2 counterexample: scrubbing to index 2 at t=5 on [2, null, null, null, 8]
does not leave the other entries as they were. -/
theorem C2_counterexample :
    updateTimestamps [some 2, none, none, none, some 8] 2 5
      ≠ [some 2, none, some 5, none, some 8] := by
  norm_num [updateTimestamps, clearAfter, lastSyncedBefore, interpFill]
  exact fun h => Option.noConfusion h

/-- C2 (amended): scrubbing to index 2 at t=5 on [2, null, null, null, 8]
sets index 2 to 5, interpolates index 1 to 3.5 against the nearest set
predecessor (index 0), and clears every index greater than 2, so index 4
loses its 8.0. -/
theorem C2_scrub_result :
    updateTimestamps [some 2, none, none, none, some 8] 2 5
      = [some 2, some (7 / 2), some 5, none, none] := by
  norm_num [updateTimestamps, clearAfter, lastSyncedBefore, interpFill]

/-- C5: for the three lines with intervals [0,5], [4,9], [8,12] — a chained
overlap in which the first and third lines do not directly overlap — the
overlap resolution converges to an effective end time of 12 for every one
of the three lines. -/
theorem C5_overlap_transitivity :
    getLineStartTime (some line5A) = ETime.fin 0 ∧ getLineEndTime (some line5A) = ETime.fin 5 ∧
    getLineStartTime (some line5B) = ETime.fin 4 ∧ getLineEndTime (some line5B) = ETime.fin 9 ∧
    getLineStartTime (some line5C) = ETime.fin 8 ∧ getLineEndTime (some line5C) = ETime.fin 12 ∧
    mapGet (effectiveLineEndTimes [line5A, line5B, line5C]) line5A.id = some (ETime.fin 12) ∧
    mapGet (effectiveLineEndTimes [line5A, line5B, line5C]) line5B.id = some (ETime.fin 12) ∧
    mapGet (effectiveLineEndTimes [line5A, line5B, line5C]) line5C.id = some (ETime.fin 12) := by
  decide

theorem clearAfter_length (newIdx : Nat) (l : List (Option ℚ)) :
    ∀ i, (clearAfter newIdx l i).length = l.length := by
  induction l with
  | nil => intro i; rfl
  | cons t rest ih => intro i; simp [clearAfter, ih]

theorem interpFill_length (j : Nat) (tj : ℚ) (idx : Nat) (nt : ℚ) (l : List (Option ℚ)) :
    ∀ i, (interpFill j tj idx nt l i).length = l.length := by
  induction l with
  | nil => intro i; rfl
  | cons t rest ih => intro i; simp [interpFill, ih]

theorem clearAfter_get? (newIdx : Nat) (l : List (Option ℚ)) :
    ∀ i0 k, (clearAfter newIdx l i0).get? k
      = (l.get? k).map (fun t => if newIdx < i0 + k then none else t) := by
  induction l with
  | nil => intro i0 k; rfl
  | cons t rest ih =>
    intro i0 k
    cases k with
    | zero => simp [clearAfter]
    | succ k =>
      simp only [clearAfter, List.get?_cons_succ, ih (i0 + 1) k]
      have : i0 + 1 + k = i0 + (k + 1) := by omega
      rw [this]

theorem interpFill_get?_out (j : Nat) (tj : ℚ) (idx : Nat) (nt : ℚ) (l : List (Option ℚ)) :
    ∀ i0 k, ¬ (j < i0 + k ∧ i0 + k < idx) →
      (interpFill j tj idx nt l i0).get? k = l.get? k := by
  induction l with
  | nil => intro i0 k _; rfl
  | cons t rest ih =>
    intro i0 k hk
    cases k with
    | zero =>
      simp only [Nat.add_zero] at hk
      simp [interpFill, if_neg hk]
    | succ k =>
      have : ¬ (j < i0 + 1 + k ∧ i0 + 1 + k < idx) := by omega
      simp only [interpFill, List.get?_cons_succ, ih (i0 + 1) k this]

theorem updateTimestamps_length (l : List (Option ℚ)) (idx : Nat) (t : ℚ) :
    (updateTimestamps l idx t).length = l.length := by
  simp only [updateTimestamps]
  split
  · split
    · simp [interpFill_length, clearAfter_length]
    · simp [clearAfter_length]
  · simp [clearAfter_length]

theorem updateTimestamps_get?_self (l : List (Option ℚ)) (idx : Nat) (t : ℚ)
    (h : idx < l.length) :
    (updateTimestamps l idx t).get? idx = some (some t) := by
  have hset : (l.set idx (some t)).get? idx = some (some t) :=
    List.get?_set_eq_of_lt (some t) h
  have hclear : (clearAfter idx (l.set idx (some t)) 0).get? idx = some (some t) := by
    rw [clearAfter_get?, hset]
    simp
  simp only [updateTimestamps]
  split
  · split
    · rw [interpFill_get?_out, hclear]
      omega
    · exact hclear
  · exact hclear

theorem updateTimestamps_get?_gt (l : List (Option ℚ)) (idx : Nat) (t : ℚ)
    (i : Nat) (hgt : idx < i) (hlt : i < l.length) :
    (updateTimestamps l idx t).get? i = some none := by
  have hset : (l.set idx (some t)).get? i = l.get? i :=
    List.get?_set_ne (some t) l (by omega)
  obtain ⟨x, hx⟩ : ∃ x, l.get? i = some x := by
    rw [List.get?_eq_get hlt]; exact ⟨_, rfl⟩
  have hclear : (clearAfter idx (l.set idx (some t)) 0).get? i = some none := by
    rw [clearAfter_get?, hset, hx]
    simp [Nat.zero_add, hgt]
  simp only [updateTimestamps]
  split
  · split
    · rw [interpFill_get?_out, hclear]
      omega
    · exact hclear
  · exact hclear

/-- C4: every scrub to index `idx` at time `t` sets the track entry at
`idx` to `t` and nulls every entry at a greater index (the track length is
unchanged); in particular on [null, null, null], scrubbing to index 2 at
t=10 and then to index 0 at t=4 yields [4, null, null]. -/
theorem C4_scrub_authoritative :
    (∀ (track : List (Option ℚ)) (idx : Nat) (t : ℚ), idx < track.length →
      (updateTimestamps track idx t).length = track.length ∧
      (updateTimestamps track idx t).get? idx = some (some t) ∧
      ∀ i, idx < i → i < track.length → (updateTimestamps track idx t).get? i = some none)
    ∧ updateTimestamps (updateTimestamps [none, none, none] 2 10) 0 4
        = [some 4, none, none] := by
  constructor
  · intro track idx t h
    exact ⟨updateTimestamps_length track idx t,
      updateTimestamps_get?_self track idx t h,
      fun i hgt hlt => updateTimestamps_get?_gt track idx t i hgt hlt⟩
  · norm_num [updateTimestamps, clearAfter, lastSyncedBefore, interpFill]

/-- C4 witness: the universal part of C4 applied to the concrete track
[null, null, null] at index 2, time 10. -/
theorem C4_witness :
    (updateTimestamps [none, none, none] 2 10).length = 3 ∧
    (updateTimestamps [none, none, none] 2 10).get? 2 = some (some 10) := by
  have h := C4_scrub_authoritative.1 [none, none, none] 2 10 (by norm_num)
  exact ⟨h.1, h.2.1⟩

theorem ETime.fin_le_fin {a b : ℚ} : (ETime.fin a ≤ ETime.fin b) ↔ a ≤ b := by
  show ETime.ble (ETime.fin a) (ETime.fin b) = true ↔ a ≤ b
  simp [ETime.ble]

theorem foldl_qmin_le_init (ts : List ℚ) : ∀ a, ts.foldl qmin a ≤ a := by
  induction ts with
  | nil => intro a; exact le_refl a
  | cons t rest ih =>
    intro a
    calc (t :: rest).foldl qmin a = rest.foldl qmin (qmin a t) := rfl
    _ ≤ qmin a t := ih (qmin a t)
    _ ≤ a := by rw [qmin_eq_min]; exact min_le_left a t

theorem foldl_qmin_le_mem (ts : List ℚ) : ∀ a x, x ∈ ts → ts.foldl qmin a ≤ x := by
  induction ts with
  | nil => intro a x hx; cases hx
  | cons t rest ih =>
    intro a x hx
    rcases List.mem_cons.mp hx with h | h
    · subst h
      calc (x :: rest).foldl qmin a = rest.foldl qmin (qmin a x) := rfl
      _ ≤ qmin a x := foldl_qmin_le_init rest (qmin a x)
      _ ≤ x := by rw [qmin_eq_min]; exact min_le_right a x
    · exact ih (qmin a t) x h

theorem foldl_qmin_mem (ts : List ℚ) : ∀ a, ts.foldl qmin a = a ∨ ts.foldl qmin a ∈ ts := by
  induction ts with
  | nil => intro a; exact Or.inl rfl
  | cons t rest ih =>
    intro a
    rcases ih (qmin a t) with h | h
    · by_cases hlt : a < t
      · left
        show rest.foldl qmin (qmin a t) = a
        rw [h, qmin, if_pos hlt]
      · right
        show rest.foldl qmin (qmin a t) ∈ t :: rest
        rw [h, qmin, if_neg hlt]
        exact List.mem_cons_self t rest
    · right
      exact List.mem_cons_of_mem t h

theorem foldl_qmax_ge_init (ts : List ℚ) : ∀ a, a ≤ ts.foldl qmax a := by
  induction ts with
  | nil => intro a; exact le_refl a
  | cons t rest ih =>
    intro a
    calc a ≤ qmax a t := by rw [qmax_eq_max]; exact le_max_left a t
    _ ≤ rest.foldl qmax (qmax a t) := ih (qmax a t)
    _ = (t :: rest).foldl qmax a := rfl

theorem foldl_qmax_ge_mem (ts : List ℚ) : ∀ a x, x ∈ ts → x ≤ ts.foldl qmax a := by
  induction ts with
  | nil => intro a x hx; cases hx
  | cons t rest ih =>
    intro a x hx
    rcases List.mem_cons.mp hx with h | h
    · subst h
      calc x ≤ qmax a x := by rw [qmax_eq_max]; exact le_max_right a x
      _ ≤ rest.foldl qmax (qmax a x) := foldl_qmax_ge_init rest (qmax a x)
      _ = (x :: rest).foldl qmax a := rfl
    · exact ih (qmax a t) x h

theorem foldl_qmax_mem (ts : List ℚ) : ∀ a, ts.foldl qmax a = a ∨ ts.foldl qmax a ∈ ts := by
  induction ts with
  | nil => intro a; exact Or.inl rfl
  | cons t rest ih =>
    intro a
    rcases ih (qmax a t) with h | h
    · by_cases hlt : a < t
      · right
        show rest.foldl qmax (qmax a t) ∈ t :: rest
        rw [h, qmax, if_pos hlt]
        exact List.mem_cons_self t rest
      · left
        show rest.foldl qmax (qmax a t) = a
        rw [h, qmax, if_neg hlt]
    · right
      exact List.mem_cons_of_mem t h

/-- C8: the line start time is the minimum defined timestamp across the
main and all ad-lib tracks (positive infinity when none is defined), the
line end time is the maximum of the same set (negative infinity when none
is defined), and start is at most end whenever both are finite. -/
theorem C8_start_end_extrema (line : SyncLine) :
    (lineTimes line = [] →
      getLineStartTime (some line) = ETime.posInf ∧ getLineEndTime (some line) = ETime.negInf)
    ∧ (∀ t ∈ lineTimes line,
        getLineStartTime (some line) ≤ ETime.fin t ∧ ETime.fin t ≤ getLineEndTime (some line))
    ∧ (lineTimes line ≠ [] → ∃ a b, a ∈ lineTimes line ∧ b ∈ lineTimes line ∧
        getLineStartTime (some line) = ETime.fin a ∧ getLineEndTime (some line) = ETime.fin b ∧
        a ≤ b)
    ∧ (∀ a b, getLineStartTime (some line) = ETime.fin a →
        getLineEndTime (some line) = ETime.fin b → a ≤ b) := by
  have hs : getLineStartTime (some line)
      = (match lineTimes line with
         | [] => ETime.posInf
         | t :: ts => ETime.fin (ts.foldl qmin t)) := rfl
  have he : getLineEndTime (some line)
      = (match lineTimes line with
         | [] => ETime.negInf
         | t :: ts => ETime.fin (ts.foldl qmax t)) := rfl
  cases h : lineTimes line with
  | nil =>
    rw [h] at hs he
    refine ⟨fun _ => ⟨hs, he⟩, ?_, fun hne => absurd rfl hne, ?_⟩
    · intro t ht; simp at ht
    · intro a b ha _
      rw [hs] at ha
      exact ETime.noConfusion ha
  | cons t ts =>
    rw [h] at hs he
    have hmin_le : ∀ x ∈ t :: ts, ts.foldl qmin t ≤ x := by
      intro x hx
      rcases List.mem_cons.mp hx with hx | hx
      · subst hx; exact foldl_qmin_le_init ts x
      · exact foldl_qmin_le_mem ts t x hx
    have hmax_ge : ∀ x ∈ t :: ts, x ≤ ts.foldl qmax t := by
      intro x hx
      rcases List.mem_cons.mp hx with hx | hx
      · subst hx; exact foldl_qmax_ge_init ts x
      · exact foldl_qmax_ge_mem ts t x hx
    have hmin_mem : ts.foldl qmin t ∈ t :: ts := by
      rcases foldl_qmin_mem ts t with hm | hm
      · rw [hm]; exact List.mem_cons_self t ts
      · exact List.mem_cons_of_mem t hm
    have hmax_mem : ts.foldl qmax t ∈ t :: ts := by
      rcases foldl_qmax_mem ts t with hm | hm
      · rw [hm]; exact List.mem_cons_self t ts
      · exact List.mem_cons_of_mem t hm
    have hab : ts.foldl qmin t ≤ ts.foldl qmax t :=
      le_trans (hmin_le t (List.mem_cons_self t ts)) (hmax_ge t (List.mem_cons_self t ts))
    refine ⟨fun hemp => absurd hemp (by simp), ?_, ?_, ?_⟩
    · intro x hx
      refine ⟨?_, ?_⟩
      · rw [hs]; exact ETime.fin_le_fin.mpr (hmin_le x hx)
      · rw [he]; exact ETime.fin_le_fin.mpr (hmax_ge x hx)
    · intro _
      exact ⟨ts.foldl qmin t, ts.foldl qmax t, hmin_mem, hmax_mem, hs, he, hab⟩
    · intro a b ha hb
      rw [hs] at ha
      rw [he] at hb
      have ha2 : ts.foldl qmin t = a := by injection ha
      have hb2 : ts.foldl qmax t = b := by injection hb
      rw [← ha2, ← hb2]; exact hab

/-- C8 witness: the extrema characterization applied to the concrete line
with timestamps 0 and 5. -/
theorem C8_witness :
    getLineStartTime (some line5A) ≤ ETime.fin 0 ∧ ETime.fin 5 ≤ getLineEndTime (some line5A) := by
  have h := (C8_start_end_extrema line5A).2.1
  exact ⟨(h 0 (by decide)).1, (h 5 (by decide)).2⟩

theorem ETime.le_iff_ble {a b : ETime} : a ≤ b ↔ ETime.ble a b = true := Iff.rfl

theorem ETime.lt_iff_blt {a b : ETime} : a < b ↔ ETime.blt a b = true := Iff.rfl

/-- C6: for every line and every playback time, the line is classified
active by the preview selector exactly when its effective end time is
present in the effective-end map, the current time is at least the line
start minus the 0.2 s pre-roll, and the current time is strictly before
that effective end. -/
theorem C6_active_iff (sortedSyncData : List SyncLine) (currentTime : ℚ) (line : SyncLine) :
    activeLinePred (effectiveLineEndTimes sortedSyncData) currentTime line = true ↔
      ∃ e, mapGet (effectiveLineEndTimes sortedSyncData) line.id = some e ∧
        ETime.subQ (getLineStartTime (some line)) (1 / 5) ≤ ETime.fin currentTime ∧
        ETime.fin currentTime < e := by
  simp only [activeLinePred]
  cases hst : getLineStartTime (some line) with
  | posInf =>
    simp [ETime.subQ, ETime.le_iff_ble, ETime.ble]
  | negInf =>
    cases hget : mapGet (effectiveLineEndTimes sortedSyncData) line.id with
    | none => simp [hget, ETime.subQ, ETime.le_iff_ble, ETime.lt_iff_blt, ETime.ble, ETime.blt]
    | some e =>
      cases e <;>
        simp [hget, ETime.subQ, ETime.le_iff_ble, ETime.lt_iff_blt, ETime.ble, ETime.blt]
  | fin q =>
    cases hget : mapGet (effectiveLineEndTimes sortedSyncData) line.id with
    | none => simp [hget, ETime.subQ, ETime.le_iff_ble, ETime.lt_iff_blt, ETime.ble, ETime.blt]
    | some e =>
      cases e <;>
        simp [hget, ETime.subQ, ETime.le_iff_ble, ETime.lt_iff_blt, ETime.ble, ETime.blt]

/-- C3 counterexample: in the group-advance scenario the editor does
advance to the next line and the group's minimum start time is 5, but the
playback position after release is not 5 (it is 4.9: the code seeks 0.1 s
before the group start). -/
theorem C3_counterexample :
    (handleSliderRelease stG).currentLine = 1 ∧
    findEarliestStartTimeForGroup 7 (handleSliderRelease stG).syncData = ETime.fin 5 ∧
    (handleSliderRelease stG).audioTime ≠ 5 := by
  refine ⟨by decide, by decide, ?_⟩
  have h : (handleSliderRelease stG).audioTime = if (1 / 10 : ℚ) < 5 then 5 - 1 / 10 else 0 := rfl
  rw [h]
  norm_num

/-- C3 (amended): when a release at the last character leaves the current
line fully synced (main and all ad-libs) and the next line shares the
current line's group id, the editor advances to the next line, keeps
playing, and seeks playback to 0.1 s before the minimum start time across
all lines of the group (clamped to 0 when that minimum is at most 0.1). -/
theorem C3_group_advance_seek (st : SyncState) (lineData nextLineData : SyncLine)
    (gid : Nat) (q : ℚ)
    (hline : st.syncData.get? st.currentLine = some lineData)
    (htarget : st.syncTarget = SyncTarget.main)
    (hchars : lineData.chars ≠ [])
    (hidx : st.charIdx = lineData.chars.length - 1)
    (hsynced : isPartSynced lineData.chars (lineData.time.set st.charIdx (some st.audioTime)) = true)
    (hadlibs : ∀ a ∈ lineData.adlibs, isPartSynced a.chars a.time = true)
    (hnext : st.syncData.get? (st.currentLine + 1) = some nextLineData)
    (hgidA : lineData.groupId = some gid)
    (hgidB : nextLineData.groupId = some gid)
    (hgroup : findEarliestStartTimeForGroup gid
        (st.syncData.set st.currentLine
          (releaseUpdatedLine lineData SyncTarget.main st.charIdx st.audioTime)) = ETime.fin q) :
    (handleSliderRelease st).currentLine = st.currentLine + 1 ∧
    (handleSliderRelease st).audioTime = (if (1 / 10 : ℚ) < q then q - 1 / 10 else 0) ∧
    (handleSliderRelease st).playing = true := by
  have hchars' : (releaseUpdatedLine lineData SyncTarget.main st.charIdx st.audioTime).chars
      = lineData.chars := rfl
  have htime' : (releaseUpdatedLine lineData SyncTarget.main st.charIdx st.audioTime).time
      = lineData.time.set st.charIdx (some st.audioTime) := rfl
  have hadl' : (releaseUpdatedLine lineData SyncTarget.main st.charIdx st.audioTime).adlibs
      = lineData.adlibs := rfl
  have hgid' : (releaseUpdatedLine lineData SyncTarget.main st.charIdx st.audioTime).groupId
      = lineData.groupId := rfl
  have hAtEnd : (decide (lineData.chars.length - 1 ≤ st.charIdx)
      && decide (0 < lineData.chars.length)) = true := by
    rw [hidx]
    simp [List.length_pos.mpr hchars]
  have hfind : lineData.adlibs.findIdx?
      (fun adlib => ! isPartSynced adlib.chars adlib.time) = none := by
    rw [List.findIdx?_eq_none_iff]
    intro a ha
    simp [hadlibs a ha]
  have hnext2 : (st.syncData.set st.currentLine
      (releaseUpdatedLine lineData SyncTarget.main st.charIdx st.audioTime)).get?
        (st.currentLine + 1) = some nextLineData := by
    rw [List.get?_set_ne _ _ (by omega)]
    exact hnext
  simp only [handleSliderRelease, hline, htarget, activeCharsOf, hchars', htime', hadl', hgid',
    hAtEnd, hsynced, hfind, hnext2, hgidA, hgidB, if_true, Bool.not_true, Bool.false_eq_true,
    if_false, hgroup, changeLine]
  simp [if_pos rfl]

/-- C3 witness: the amended group-advance theorem applied to the concrete
group-advance scenario, whose group minimum start is 5. -/
theorem C3_witness :
    (handleSliderRelease stG).currentLine = 1 ∧
    (handleSliderRelease stG).audioTime = (if (1 / 10 : ℚ) < 5 then 5 - 1 / 10 else 0) ∧
    (handleSliderRelease stG).playing = true := by
  have h := C3_group_advance_seek stG lineG_A lineG_B 7 5
    (by decide) rfl (by decide) rfl (by decide) (by simp [lineG_A]) rfl rfl rfl (by decide)
  exact h

theorem lineWF_resetLineTimes (l : SyncLine) : lineWF (resetLineTimes l) := by
  constructor
  · simp [resetLineTimes]
  · intro a ha
    simp only [resetLineTimes] at ha
    rcases List.mem_map.mp ha with ⟨a0, _, rfl⟩
    simp

theorem syncWF_set {sd : List SyncLine} {i : Nat} {l' : SyncLine}
    (hwf : syncWF sd) (hl' : lineWF l') : syncWF (sd.set i l') := by
  intro l hl
  rcases List.mem_or_eq_of_mem_set hl with h | h
  · exact hwf l h
  · subst h; exact hl'

theorem releaseUpdatedLine_lineWF {l : SyncLine} (hl : lineWF l) (target : SyncTarget)
    (releaseIndex : Nat) (releaseTime : ℚ) :
    lineWF (releaseUpdatedLine l target releaseIndex releaseTime) := by
  cases target with
  | main =>
    exact ⟨hl.1.trans (List.length_set _ _ _).symm, hl.2⟩
  | adlib ai =>
    cases hga : l.adlibs.get? ai with
    | none => simp only [releaseUpdatedLine, hga]; exact hl
    | some a0 =>
      simp only [releaseUpdatedLine, hga]
      refine ⟨hl.1, ?_⟩
      intro a ha
      rcases List.mem_or_eq_of_mem_set ha with h | h
      · exact hl.2 a h
      · subst h
        exact (hl.2 a0 (List.get?_mem hga)).trans (List.length_set _ _ _).symm

theorem changeLine_syncData_noseek (st : SyncState) (i : Nat) (p : Bool) :
    (changeLine st i p false).syncData = st.syncData := rfl

theorem changeLine_wf (st : SyncState) (i : Nat) (p s : Bool) (h : syncWF st.syncData) :
    syncWF (changeLine st i p s).syncData := by
  unfold changeLine
  cases s with
  | false => exact h
  | true =>
    simp only [if_true]
    split
    · rename_i heq
      apply syncWF_set _ (lineWF_resetLineTimes _)
      split
      · split <;> exact h
      · exact h
    · split
      · split <;> exact h
      · exact h

theorem sliderInputUpdate_wf (sd : List SyncLine) (currentLine : Nat) (target : SyncTarget)
    (newIdx : Nat) (newTime : ℚ) (hwf : syncWF sd) :
    syncWF (sliderInputUpdate sd currentLine target newIdx newTime) := by
  unfold sliderInputUpdate
  cases hget : sd.get? currentLine with
  | none => exact hwf
  | some l0 =>
    have hl0 : lineWF l0 := hwf l0 (List.get?_mem hget)
    dsimp only
    apply syncWF_set hwf
    cases target with
    | main => exact ⟨hl0.1.trans (updateTimestamps_length _ _ _).symm, hl0.2⟩
    | adlib ai =>
      cases hga : l0.adlibs.get? ai with
      | none => simp only [hga]; exact hl0
      | some a0 =>
        simp only [hga]
        refine ⟨hl0.1, ?_⟩
        intro a ha
        rcases List.mem_or_eq_of_mem_set ha with hmem | heq
        · exact hl0.2 a hmem
        · subst heq
          exact (hl0.2 a0 (List.get?_mem hga)).trans (updateTimestamps_length _ _ _).symm

theorem handleSliderRelease_wf (st : SyncState) (h : syncWF st.syncData) :
    syncWF (handleSliderRelease st).syncData := by
  unfold handleSliderRelease
  cases hget : st.syncData.get? st.currentLine with
  | none => exact h
  | some lineData =>
    dsimp only
    have hwfnext : syncWF (st.syncData.set st.currentLine
        (releaseUpdatedLine lineData st.syncTarget st.charIdx st.audioTime)) :=
      syncWF_set h (releaseUpdatedLine_lineWF (h _ (List.get?_mem hget)) _ _ _)
    split
    · split
      · exact hwfnext
      · split
        · exact hwfnext
        · split
          · rw [changeLine_syncData_noseek]
            exact hwfnext
          · exact hwfnext
    · exact hwfnext

theorem handleReplayLine_wf (st : SyncState) (h : syncWF st.syncData) :
    syncWF (handleReplayLine st).syncData := by
  unfold handleReplayLine
  cases hget : st.syncData.get? st.currentLine with
  | none => exact h
  | some lineData =>
    dsimp only
    split <;> exact syncWF_set h (lineWF_resetLineTimes _)

theorem handleResetTimings_wf (st : SyncState) : syncWF (handleResetTimings st).syncData := by
  unfold handleResetTimings
  apply changeLine_wf
  intro l hl
  rcases List.mem_map.mp hl with ⟨l0, _, rfl⟩
  exact lineWF_resetLineTimes l0

theorem handleConfirm_member (lines : List StructureLine) (orig : List SyncLine)
    (hwf : syncWF orig) :
    ∀ sl ∈ handleConfirm lines (some orig),
      lineWF sl ∧
      (sl.time = List.replicate sl.chars.length none ∨
        ∃ ol ∈ orig, ol.chars = sl.chars ∧ ol.time = sl.time) := by
  intro sl hsl
  rcases List.mem_filter.mp hsl with ⟨hmem, -⟩
  rcases List.mem_map.mp hmem with ⟨line, hline, rfl⟩
  simp only [confirmLine, Option.some_bind]
  have hadlib : ∀ a ∈ ((promotedParts line).2).map
      (confirmAdlib (orig.find? (fun l => l.id = line.id))),
      a.chars.length = a.time.length := by
    intro a ha
    rcases List.mem_map.mp ha with ⟨adlib, hadl, rfl⟩
    simp only [confirmAdlib]
    cases hfind : orig.find? (fun l => l.id = line.id) with
    | none => simp
    | some ol =>
      simp only [Option.some_bind]
      cases hfa : ol.adlibs.find? (fun a0 => a0.id = adlib.id) with
      | none => simp
      | some oa =>
        simp only
        split
        · rename_i hoachars
          exact hoachars ▸ ((hwf ol (List.mem_of_find?_eq_some hfind)).2 oa
            (List.mem_of_find?_eq_some hfa)).symm ▸ rfl
        · simp
  cases hfind : orig.find? (fun l => l.id = line.id) with
  | none =>
    refine ⟨⟨by simp, ?_⟩, Or.inl rfl⟩
    intro a ha
    exact hadlib a (by rw [hfind]; exact ha)
  | some ol =>
    have hol := hwf ol (List.mem_of_find?_eq_some hfind)
    constructor
    · constructor
      · dsimp only
        split
        · rename_i holchars
          rw [← holchars, ← hol.1]
        · simp
      · intro a ha
        exact hadlib a (by rw [hfind]; exact ha)
    · dsimp only
      split
      · rename_i holchars
        exact Or.inr ⟨ol, List.mem_of_find?_eq_some hfind, holchars, rfl⟩
      · exact Or.inl rfl

/-- C9: every core operation — scrub assignment with interpolation, the
release commit (with everything the release handler does afterwards), the
per-line replay reset, the full timing reset, and the structural edit
commit — keeps every track of every line with as many timestamps as
characters; and the structural edit commit gives every produced line
either a fresh all-null track of the new length or the preserved original
track of an unchanged text. -/
theorem C9_track_invariant (st : SyncState) (sd orig : List SyncLine)
    (lines : List StructureLine) (currentLine newIdx : Nat) (target : SyncTarget) (newTime : ℚ)
    (hwf : syncWF sd) (hworig : syncWF orig) (hwst : syncWF st.syncData)
    (hidx : ∀ l, sd.get? currentLine = some l → newIdx < (activeCharsOf l target).length)
    (hchar : ∀ l, st.syncData.get? st.currentLine = some l →
      st.charIdx < (activeCharsOf l st.syncTarget).length) :
    syncWF (sliderInputUpdate sd currentLine target newIdx newTime)
    ∧ syncWF ((handleSliderRelease st).syncData)
    ∧ syncWF ((handleReplayLine st).syncData)
    ∧ syncWF ((handleResetTimings st).syncData)
    ∧ syncWF (handleConfirm lines (some orig))
    ∧ (∀ sl ∈ handleConfirm lines (some orig),
        sl.time = List.replicate sl.chars.length none ∨
        ∃ ol ∈ orig, ol.chars = sl.chars ∧ ol.time = sl.time) := by
  refine ⟨sliderInputUpdate_wf sd currentLine target newIdx newTime hwf,
    handleSliderRelease_wf st hwst,
    handleReplayLine_wf st hwst,
    handleResetTimings_wf st,
    fun sl hsl => (handleConfirm_member lines orig hworig sl hsl).1,
    fun sl hsl => (handleConfirm_member lines orig hworig sl hsl).2⟩

/-- C9 witness: the invariant theorem applied to the concrete group-advance
scenario state and a singleton data set. -/
theorem C9_witness :
    syncWF (sliderInputUpdate [lineG_B] 0 SyncTarget.main 0 2) ∧
    syncWF ((handleSliderRelease stG).syncData) := by
  have hwfB : syncWF [lineG_B] := by
    intro l hl
    rcases List.mem_singleton.mp hl with rfl
    exact ⟨rfl, by simp [lineG_B]⟩
  have hwfG : syncWF stG.syncData := by
    intro l hl
    rcases List.mem_cons.mp hl with rfl | hl
    · exact ⟨rfl, by simp [lineG_A]⟩
    · rcases List.mem_singleton.mp hl with rfl
      exact ⟨rfl, by simp [lineG_B]⟩
  have h := C9_track_invariant stG [lineG_B] [lineG_B] [] 0 0 SyncTarget.main 2
    hwfB hwfB hwfG
    (by intro l hl; simp at hl; subst hl; simp [activeCharsOf, lineG_B])
    (by intro l hl; simp [stG] at hl; subst hl; simp [activeCharsOf, lineG_A, stG])
  exact ⟨h.1, h.2.1⟩

theorem lastSungLoop_sorted (ct : ℚ) :
    ∀ (ts : List ℚ) (i : Nat) (acc : Option (Nat × ℚ)), ts.Pairwise (· < ·) →
      lastSungLoop ct (ts.map some) i acc =
        (if ts.countP (fun t => decide (t ≤ ct)) = 0 then acc
         else some (i + (ts.countP (fun t => decide (t ≤ ct)) - 1),
           ts.getD (ts.countP (fun t => decide (t ≤ ct)) - 1) 0)) := by
  intro ts
  induction ts with
  | nil => intro i acc _; simp [lastSungLoop]
  | cons t rest ih =>
    intro i acc hsort
    have hsrest := (List.pairwise_cons.mp hsort).2
    have hshead := (List.pairwise_cons.mp hsort).1
    by_cases ht : t ≤ ct
    · have hstep : lastSungLoop ct ((t :: rest).map some) i acc
          = lastSungLoop ct (rest.map some) (i + 1) (some (i, t)) := by
        simp [lastSungLoop, ht]
      rw [hstep, ih (i + 1) (some (i, t)) hsrest]
      have hcnt : (t :: rest).countP (fun t => decide (t ≤ ct))
          = rest.countP (fun t => decide (t ≤ ct)) + 1 := by
        simp [List.countP_cons, ht]
      rw [hcnt]
      by_cases hc0 : rest.countP (fun t => decide (t ≤ ct)) = 0
      · simp [hc0]
      · rw [if_neg hc0, if_neg (by omega)]
        obtain ⟨m, hm⟩ : ∃ m, rest.countP (fun t => decide (t ≤ ct)) = m + 1 :=
          ⟨_, (Nat.succ_pred_eq_of_pos (Nat.pos_of_ne_zero hc0)).symm⟩
        rw [hm]
        simp only [Nat.add_sub_cancel, List.getD_cons_succ]
        rw [show i + 1 + m = i + (m + 1) by omega]
    · have hstep : lastSungLoop ct ((t :: rest).map some) i acc
          = lastSungLoop ct (rest.map some) (i + 1) acc := by
        simp [lastSungLoop, ht]
      have hcrest : rest.countP (fun t => decide (t ≤ ct)) = 0 := by
        rw [List.countP_eq_zero]
        intro a ha
        simp only [decide_eq_true_eq]
        intro hle
        exact absurd hle (not_le.mpr (lt_of_le_of_lt (not_le.mp ht).le (by
          exact lt_of_lt_of_le (lt_of_le_of_lt le_rfl (hshead a ha)) le_rfl)))
      have hcnt : (t :: rest).countP (fun t => decide (t ≤ ct)) = 0 := by
        simp [List.countP_cons, ht, hcrest]
      rw [hstep, ih (i + 1) acc hsrest, hcrest, hcnt]
      simp

theorem nextSungLoop_map_some (k : Nat) :
    ∀ (ts : List ℚ) (i : Nat),
      nextSungLoop k (ts.map some) i =
        (if Nat.max i (k + 1) < i + ts.length
         then some (Nat.max i (k + 1), ts.getD (Nat.max i (k + 1) - i) 0)
         else none) := by
  intro ts
  induction ts with
  | nil => intro i; simp [nextSungLoop]
  | cons t rest ih =>
    intro i
    by_cases hki : k < i
    · have h1 : Nat.max i (k + 1) = i := Nat.max_eq_left (by omega)
      simp [nextSungLoop, hki, h1]
    · have h1 : Nat.max i (k + 1) = k + 1 := Nat.max_eq_right (by omega)
      have h2 : Nat.max (i + 1) (k + 1) = k + 1 := Nat.max_eq_right (by omega)
      have hstep : nextSungLoop k ((t :: rest).map some) i
          = nextSungLoop k (rest.map some) (i + 1) := by
        simp [nextSungLoop, hki]
      rw [hstep, ih (i + 1), h1, h2]
      by_cases hlt : k + 1 < i + 1 + rest.length
      · rw [if_pos hlt, if_pos (by simpa using by omega : k + 1 < i + (t :: rest).length)]
        obtain ⟨m, hm⟩ : ∃ m, k + 1 - i = m + 1 := ⟨k - i, by omega⟩
        rw [show k + 1 - (i + 1) = m by omega, hm, List.getD_cons_succ]
      · rw [if_neg hlt, if_neg (by simp; omega)]

theorem progress_eq_closedForm (chars : List Char) (ts : List ℚ) (o : Option ℚ) (ct : ℚ)
    (hne : ts ≠ []) (hlen : chars.length = ts.length) (hsort : ts.Pairwise (· < ·)) :
    progress chars (ts.map some) ct o false = progressClosedForm (chars.length) ts o ct := by
  cases ts with
  | nil => exact absurd rfl hne
  | cons t0 ts' =>
  have hchars0 : chars.length ≠ 0 := by rw [hlen]; simp
  have hfs : ((t0 :: ts').map some).findSome? (fun t => t) = some t0 := by
    simp [List.findSome?]
  have hall : ((t0 :: ts').map some).all (fun t => t.isNone) = false := by simp
  simp only [progress, Bool.false_eq_true, if_false, hfs, hall]
  rw [if_neg (by simp [hchars0])]
  by_cases hct : ct < t0
  · rw [if_pos hct]
    have hc0 : (t0 :: ts').countP (fun t => decide (t ≤ ct)) = 0 := by
      rw [List.countP_eq_zero]
      intro a ha
      simp only [decide_eq_true_eq]
      rcases List.mem_cons.mp ha with rfl | ha
      · exact not_le.mpr hct
      · exact not_le.mpr (lt_trans hct ((List.pairwise_cons.mp hsort).1 a ha))
    rw [progressClosedForm, if_pos hc0]
  · rw [if_neg hct]
    have ht0 : t0 ≤ ct := not_lt.mp hct
    have hc1 : 1 ≤ (t0 :: ts').countP (fun t => decide (t ≤ ct)) := by
      rw [List.countP_cons]
      simp [ht0]
    have hcn : (t0 :: ts').countP (fun t => decide (t ≤ ct)) ≤ (t0 :: ts').length :=
      List.countP_le_length _
    rw [lastSungLoop_sorted ct (t0 :: ts') 0 none hsort]
    rw [if_neg (by omega)]
    dsimp only
    rw [nextSungLoop_map_some]
    have hmax : Nat.max 0 ((t0 :: ts').countP (fun t => decide (t ≤ ct)) - 1 + 1)
        = (t0 :: ts').countP (fun t => decide (t ≤ ct)) := by
      cases hcc : (t0 :: ts').countP (fun t => decide (t ≤ ct)) with
      | zero => omega
      | succ m => simp
    simp only [Nat.zero_add, Nat.sub_zero]
    rw [hmax]
    have hcne : ¬ ((t0 :: ts').countP (fun t => decide (t ≤ ct)) = 0) := by omega
    by_cases hlt : (t0 :: ts').countP (fun t => decide (t ≤ ct)) < (t0 :: ts').length
    · rw [if_pos hlt]
      dsimp only
      simp only [progressClosedForm]
      rw [if_neg hcne, if_pos hlt]
      dsimp only
      split
      · push_cast [Nat.cast_sub hc1]
        ring
      · push_cast [Nat.cast_sub hc1]
        ring
    · rw [if_neg hlt]
      dsimp only
      simp only [progressClosedForm]
      rw [if_neg hcne, if_neg hlt]
      have hceq : (t0 :: ts').countP (fun t => decide (t ≤ ct)) = (t0 :: ts').length := by omega
      cases o with
      | none =>
        dsimp only
        push_cast [Nat.cast_sub hc1]
        ring
      | some e =>
        dsimp only
        split
        · push_cast [Nat.cast_sub hc1]
          ring
        · rw [hlen, hceq]
          push_cast [Nat.cast_sub (hceq ▸ hc1)]
          ring

theorem qclamp_nonneg (x : ℚ) : 0 ≤ qmax 0 (qmin 1 x) := by
  rw [qmax_eq_max]
  exact le_max_left _ _

theorem qclamp_le_one (x : ℚ) : qmax 0 (qmin 1 x) ≤ 1 := by
  rw [qmax_eq_max, qmin_eq_min]
  exact max_le (by norm_num) (min_le_left _ _)

theorem qclamp_mono {x y : ℚ} (h : x ≤ y) : qmax 0 (qmin 1 x) ≤ qmax 0 (qmin 1 y) := by
  rw [qmax_eq_max, qmax_eq_max, qmin_eq_min, qmin_eq_min]
  exact max_le_max le_rfl (min_le_min le_rfl h)

theorem progressClosedForm_ub (n : Nat) (ts : List ℚ) (o : Option ℚ) (ct : ℚ) (hn : n ≠ 0) :
    progressClosedForm n ts o ct ≤ ((ts.countP (fun t => decide (t ≤ ct)) : ℚ)) / n * 100 := by
  have hnpos : (0 : ℚ) < n := by exact_mod_cast Nat.pos_of_ne_zero hn
  simp only [progressClosedForm]
  split
  · rename_i hc0
    rw [hc0]
    simp
  · split
    · exact le_of_eq (by ring)
    · rename_i e heq
      split
      · exact le_of_eq (by ring)
      · refine mul_le_mul_of_nonneg_right ((div_le_div_iff_of_pos_right hnpos).mpr ?_)
          (by norm_num)
        linarith [qclamp_le_one ((ct - ts.getD (ts.countP (fun t => decide (t ≤ ct)) - 1) 0) /
          (e - ts.getD (ts.countP (fun t => decide (t ≤ ct)) - 1) 0))]

theorem progressClosedForm_lb (n : Nat) (ts : List ℚ) (o : Option ℚ) (ct : ℚ) (hn : n ≠ 0)
    (hc : ts.countP (fun t => decide (t ≤ ct)) ≠ 0) :
    ((ts.countP (fun t => decide (t ≤ ct)) : ℚ) - 1) / n * 100
      ≤ progressClosedForm n ts o ct := by
  have hnpos : (0 : ℚ) < n := by exact_mod_cast Nat.pos_of_ne_zero hn
  simp only [progressClosedForm]
  rw [if_neg hc]
  split
  · refine mul_le_mul_of_nonneg_right ((div_le_div_iff_of_pos_right hnpos).mpr ?_) (by norm_num)
    linarith
  · rename_i e heq
    split
    · refine mul_le_mul_of_nonneg_right ((div_le_div_iff_of_pos_right hnpos).mpr ?_) (by norm_num)
      linarith
    · refine mul_le_mul_of_nonneg_right ((div_le_div_iff_of_pos_right hnpos).mpr ?_) (by norm_num)
      linarith [qclamp_nonneg ((ct - ts.getD (ts.countP (fun t => decide (t ≤ ct)) - 1) 0) /
        (e - ts.getD (ts.countP (fun t => decide (t ≤ ct)) - 1) 0))]

theorem progressClosedForm_nonneg (n : Nat) (ts : List ℚ) (o : Option ℚ) (ct : ℚ) (hn : n ≠ 0) :
    0 ≤ progressClosedForm n ts o ct := by
  have hnpos : (0 : ℚ) < n := by exact_mod_cast Nat.pos_of_ne_zero hn
  by_cases hc : ts.countP (fun t => decide (t ≤ ct)) = 0
  · simp only [progressClosedForm]
    rw [if_pos hc]
  · refine le_trans ?_ (progressClosedForm_lb n ts o ct hn hc)
    have h1 : (1 : ℚ) ≤ (ts.countP (fun t => decide (t ≤ ct)) : ℚ) := by
      exact_mod_cast Nat.pos_of_ne_zero hc
    exact mul_nonneg (div_nonneg (by linarith) hnpos.le) (by norm_num)

theorem progressClosedForm_mono (n : Nat) (ts : List ℚ) (o : Option ℚ) (hn : n ≠ 0)
    (ct1 ct2 : ℚ) (h12 : ct1 ≤ ct2) :
    progressClosedForm n ts o ct1 ≤ progressClosedForm n ts o ct2 := by
  have hnpos : (0 : ℚ) < n := by exact_mod_cast Nat.pos_of_ne_zero hn
  have hcc : ts.countP (fun t => decide (t ≤ ct1)) ≤ ts.countP (fun t => decide (t ≤ ct2)) := by
    refine List.countP_mono_left ?_
    intro a _ h
    simp only [decide_eq_true_eq] at h ⊢
    linarith
  by_cases hc1 : ts.countP (fun t => decide (t ≤ ct1)) = 0
  · have hL : progressClosedForm n ts o ct1 = 0 := by
      simp only [progressClosedForm]
      rw [if_pos hc1]
    rw [hL]
    exact progressClosedForm_nonneg n ts o ct2 hn
  · by_cases hceq : ts.countP (fun t => decide (t ≤ ct1)) = ts.countP (fun t => decide (t ≤ ct2))
    · simp only [progressClosedForm]
      rw [← hceq]
      rw [if_neg hc1, if_neg hc1]
      split
      · exact le_refl _
      · rename_i e heq
        split
        · exact le_refl _
        · rename_i hes
          refine mul_le_mul_of_nonneg_right ((div_le_div_iff_of_pos_right hnpos).mpr ?_)
            (by norm_num)
          have hs : 0 < e - ts.getD (ts.countP (fun t => decide (t ≤ ct1)) - 1) 0 :=
            sub_pos.mpr (not_le.mp hes)
          have harg := (div_le_div_iff_of_pos_right hs).mpr
            (by linarith : ct1 - ts.getD (ts.countP (fun t => decide (t ≤ ct1)) - 1) 0
              ≤ ct2 - ts.getD (ts.countP (fun t => decide (t ≤ ct1)) - 1) 0)
          linarith [qclamp_mono harg]
    · have hlt : ts.countP (fun t => decide (t ≤ ct1)) < ts.countP (fun t => decide (t ≤ ct2)) :=
        lt_of_le_of_ne hcc hceq
      have hc2 : ts.countP (fun t => decide (t ≤ ct2)) ≠ 0 := by omega
      calc progressClosedForm n ts o ct1
          ≤ ((ts.countP (fun t => decide (t ≤ ct1)) : ℚ)) / n * 100 :=
            progressClosedForm_ub n ts o ct1 hn
        _ ≤ ((ts.countP (fun t => decide (t ≤ ct2)) : ℚ) - 1) / n * 100 := by
            refine mul_le_mul_of_nonneg_right ((div_le_div_iff_of_pos_right hnpos).mpr ?_)
              (by norm_num)
            have : (ts.countP (fun t => decide (t ≤ ct1)) : ℚ) + 1
                ≤ (ts.countP (fun t => decide (t ≤ ct2)) : ℚ) := by exact_mod_cast hlt
            linarith
        _ ≤ progressClosedForm n ts o ct2 := progressClosedForm_lb n ts o ct2 hn hc2

/-- C7: on a track whose timestamps are all defined and strictly
increasing, with the end-time override held fixed, the fill percentage is
a non-decreasing function of the current time (for either completeness
flag), and it equals exactly 100 at and after the final timestamp when the
line is flagged complete. -/
theorem C7_progress_monotone (chars : List Char) (ts : List ℚ) (o : Option ℚ)
    (hne : ts ≠ []) (hlen : chars.length = ts.length) (hsort : ts.Pairwise (· < ·)) :
    (∀ (isComplete : Bool) (ct1 ct2 : ℚ), ct1 ≤ ct2 →
      progress chars (ts.map some) ct1 o isComplete
        ≤ progress chars (ts.map some) ct2 o isComplete)
    ∧ (∀ (ct tl : ℚ), ts.getLast? = some tl → tl ≤ ct →
        progress chars (ts.map some) ct o true = 100) := by
  have hn : chars.length ≠ 0 := by
    rw [hlen]
    intro h
    exact hne (List.length_eq_zero.mp h)
  constructor
  · intro c ct1 ct2 h
    cases c with
    | true => simp [progress]
    | false =>
      rw [progress_eq_closedForm chars ts o ct1 hne hlen hsort,
        progress_eq_closedForm chars ts o ct2 hne hlen hsort]
      exact progressClosedForm_mono chars.length ts o hn ct1 ct2 h
  · intro ct tl _ _
    simp [progress]

/-- C7 witness: monotonicity and the completed-value fact applied to the
concrete one-character track [1]. -/
theorem C7_witness :
    (progress ['a'] [some 1] 0 none false ≤ progress ['a'] [some 1] 2 none false)
    ∧ progress ['a'] [some 1] 5 none true = 100 := by
  have h := C7_progress_monotone ['a'] [1] none (by simp) (by simp) (by simp)
  exact ⟨h.1 false 0 2 (by norm_num), h.2 5 1 (by simp) (by norm_num)⟩

end LyrPro
